import Mathlib

/-!
Shallow embedding of the Poisson/CG driver `src/main_cg_poisson.cpp`.

Real (`double`) arithmetic is modelled over `ℚ`: the driver only composes
field operations, and the transcendental pieces (`std::sin`, `M_PI`) are
abstracted as parameters, since the driver only combines their results
algebraically.  C `int` values are modelled as `ℤ`; the non-negative loop
counters of the initialization loops as `ℕ`.  The flat `double*` arrays are
modelled as total functions `ℕ → ℚ` (the driver initializes every entry
with `init(n, b, 0.0)` before the loops run), and each `for` loop that
stores into the array becomes an explicit left-to-right fold of
`Function.update` steps over the list of visited loop indices, in source
iteration order.
-/

namespace CGPoisson

/-- Forcing term, from `double f(double x, double y, double z)`:
`z*sin(2*M_PI*x)*std::sin(M_PI*y) + 8*z*z*z`.  `rsin` abstracts `std::sin`
and `rpi` abstracts `M_PI`. -/
def f (rsin : ℚ → ℚ) (rpi : ℚ) (x y z : ℚ) : ℚ :=
  z * rsin (2 * rpi * x) * rsin (rpi * y) + 8 * z * z * z

/-- Boundary condition at z=0, from `double g_0(double x, double y)`:
`x*(1.0-x)*y*(1-y)`. -/
def g_0 (x y : ℚ) : ℚ :=
  x * (1 - x) * y * (1 - y)

/-- The grid spacing `1.0/(n-1)` computed both inside `laplace3d_stencil`
(line 41) and in `main` (line 83). -/
def dxOf (n : ℤ) : ℚ := 1 / ((n : ℚ) - 1)

/-- The seven-coefficient stencil value object (fields of `stencil3d`
that `laplace3d_stencil` fills; the embedded `decomp3d` handle and the
index helpers live outside this file's claims except for `index_c`,
modelled separately below). -/
structure stencil3d where
  nx : ℤ
  ny : ℤ
  nz : ℤ
  value_c : ℚ
  value_n : ℚ
  value_e : ℚ
  value_s : ℚ
  value_w : ℚ
  value_t : ℚ
  value_b : ℚ
deriving DecidableEq

/-- The message of the `std::runtime_error` thrown by `laplace3d_stencil`. -/
def stencilErrMsg : String :=
  "need at least two grid points in each direction to implement boundary conditions."

/-- `stencil3d laplace3d_stencil(int nx, int ny, int nz)` (lines 36-50):
throws when `nx<=2 || ny<=2 || nz<=2`, otherwise fills the seven
coefficients from `dx=1.0/(nx-1)` etc.  The throw is modelled as
`Except.error`. -/
def laplace3d_stencil (nx ny nz : ℤ) : Except String stencil3d :=
  if nx ≤ 2 ∨ ny ≤ 2 ∨ nz ≤ 2 then
    .error stencilErrMsg
  else
    let dx : ℚ := dxOf nx
    let dy : ℚ := dxOf ny
    let dz : ℚ := dxOf nz
    .ok ⟨nx, ny, nz,
         2 / (dx * dx) + 2 / (dy * dy) + 2 / (dz * dz),
         -1 / (dy * dy), -1 / (dx * dx),
         -1 / (dy * dy), -1 / (dx * dx),
         -1 / (dz * dz), -1 / (dz * dz)⟩

/-- The `if (ny<0) ny=nx; if (nz<0) nz=nx;` fixups applied in `main`
(lines 63-64) after the argument branch. -/
def fixdims : ℤ × ℤ × ℤ → ℤ × ℤ × ℤ
  | (nx, ny, nz) => (nx, if ny < 0 then nx else ny, if nz < 0 then nx else nz)

/-- Command-line handling of `main` (lines 59-64).  The list holds the
`atoi` values of the user-supplied arguments (`argc` in the source counts
the program name, so `argc==1` is the empty list, `argc==2` one argument,
`argc==4` three).  `none` models the `exit(-1)` branch. -/
def parseArgs : List ℤ → Option (ℤ × ℤ × ℤ)
  | [] => some (fixdims (128, 128, 128))
  | [a] => some (fixdims (a, a, a))
  | [a, b, c] => some (fixdims (a, b, c))
  | _ => none

/-- `std::numeric_limits<double>::epsilon()` for IEEE binary64. -/
def doubleEps : ℚ := 1 / 2 ^ 52

/-- The tolerance `std::sqrt(std::numeric_limits<double>::epsilon())`
computed at line 129.  The square root is exact in IEEE double arithmetic
because `2^-52 = (2^-26)^2` and `2^-26` is representable. -/
def sqrtDoubleEps : ℚ := 1 / 2 ^ 26

/-- The argument bundle `main` hands to `cg_solver(&L, n, x, b, tol,
maxIter, &resNorm, &numIter)` at line 132, as far as the claims are
concerned. -/
structure SolveCall where
  L : stencil3d
  tol : ℚ
  maxIter : ℤ
deriving DecidableEq

/-- How far `main` gets, as a function of its arguments: `argError` is the
`exit(-1)` at line 62 (before the `decomp3d DD(nx,ny,nz)` constructor at
line 67 runs), `configError` the uncaught `std::runtime_error` from
`laplace3d_stencil` at line 86 (after the decomposition, before the solve),
and `solveAttempt` reaching the `cg_solver` call at line 132. -/
inductive MainOutcome
  | argError
  | configError (msg : String)
  | solveAttempt (c : SolveCall)
deriving DecidableEq

/-- What happens from the stencil construction (line 86) onwards: an
uncaught guard throw terminates the run; otherwise `cg_solver` is reached
with `tol = sqrt(eps)` and `maxIter = 500` (lines 128-132). -/
def stencilOutcome : Except String stencil3d → MainOutcome
  | .error msg => .configError msg
  | .ok L => .solveAttempt ⟨L, sqrtDoubleEps, 500⟩

/-- What happens from the argument branch (line 62) onwards: a bad
argument count exits, otherwise the run continues into the stencil
construction with the parsed dimensions. -/
def afterParse : Option (ℤ × ℤ × ℤ) → MainOutcome
  | none => .argError
  | some (nx, ny, nz) => stencilOutcome (laplace3d_stencil nx ny nz)

/-- The control flow of `main` relevant to the claims: parse arguments
(exit on a bad count), construct the stencil (terminate on the guard
throw), then call `cg_solver` (lines 128-132).  Modelled for a
single-process run, where the `decomp3d` constructor (line 67) always
succeeds. -/
def mainModel (args : List ℤ) : MainOutcome :=
  afterParse (parseArgs args)

/-- Whether the run reached the `cg_solver` call. -/
def solveAttempted : MainOutcome → Bool
  | .solveAttempt _ => true
  | _ => false

/-- Whether the run reached the `decomp3d DD(nx, ny, nz)` constructor at
line 67: the argument-count `exit(-1)` at line 62 happens before it, the
other two outcomes after it. -/
def decompConstructed : MainOutcome → Bool
  | .argError => false
  | _ => true

/-- Modelled from the spec: `stencil3d::index_c` lives in `operations.hpp`,
which is not under `src/`; section 4.2 of the spec fixes the mapping
`(i,j,k) -> k*nx*ny + j*nx + i` (row-major, x fastest). -/
def index_c (nx ny i j k : ℕ) : ℕ := k * nx * ny + j * nx + i

/-- A run of in-place array stores, one per loop iteration: for each `p`
in the list (in order), store `upd b p` into slot `key p` of `b`.  This is
the meaning of a C `for` loop whose body is a single indexed store. -/
def loopUpdates {α : Type} (key : α → ℕ) (upd : (ℕ → ℚ) → α → ℚ) :
    List α → (ℕ → ℚ) → ℕ → ℚ
  | [], b => b
  | p :: ps, b => loopUpdates key upd ps (Function.update b (key p) (upd b p))

/-- The `(i,j,k)` triples visited by the triple loop at lines 106-119, in
source iteration order: `k` outermost, then `j`, then `i`. -/
def gridPoints (nx ny nz : ℕ) : List (ℕ × ℕ × ℕ) :=
  ((List.range nz) ×ˢ ((List.range ny) ×ˢ (List.range nx))).map
    (fun q => (q.2.2, q.2.1, q.1))

/-- The `(i,j)` pairs visited by the double loop at lines 121-125, in
source iteration order: `j` outer, `i` inner. -/
def facePoints (nx ny : ℕ) : List (ℕ × ℕ) :=
  ((List.range ny) ×ˢ (List.range nx)).map (fun q => (q.2, q.1))

/-- Array slot written by one iteration of the rhs-initialization loop:
`idx = L.index_c(i,j,k)` (line 115). -/
def rhsKey (nx ny : ℕ) : ℕ × ℕ × ℕ → ℕ
  | (i, j, k) => index_c nx ny i j k

/-- The rhs-initialization triple loop (lines 105-119):
`b[L.index_c(i,j,k)] = F(i*dx, j*dy, k*dz)` for every grid point, where
`F` is the externally supplied forcing function.  (The `#pragma omp`
parallel schedule is observationally equivalent to this sequential fold
because distinct iterations write distinct slots.) -/
def rhsInit (nx ny nz : ℕ) (F : ℚ → ℚ → ℚ → ℚ) (dx dy dz : ℚ)
    (b : ℕ → ℚ) : ℕ → ℚ :=
  loopUpdates (rhsKey nx ny)
    (fun _ p => F (p.1 * dx) (p.2.1 * dy) (p.2.2 * dz))
    (gridPoints nx ny nz) b

/-- Array slot written by one iteration of the Dirichlet folding loop:
`L.index_c(i,j,0)` (line 124). -/
def faceKey (nx ny : ℕ) : ℕ × ℕ → ℕ
  | (i, j) => index_c nx ny i j 0

/-- The Dirichlet boundary folding loop (lines 121-125):
`b[L.index_c(i,j,0)] -= vb*g_0(i*dx, j*dy)` where `vb` is `L.value_b`. -/
def dirichletFold (nx ny : ℕ) (vb : ℚ) (dx dy : ℚ) (b : ℕ → ℚ) : ℕ → ℚ :=
  loopUpdates (faceKey nx ny)
    (fun b p => b (faceKey nx ny p) - vb * g_0 (p.1 * dx) (p.2 * dy))
    (facePoints nx ny) b

/-- Whether grid point `(i,j,k)` lies on the boundary of the global
`nx × ny × nz` grid. -/
def onBoundary (nx ny nz i j k : ℕ) : Prop :=
  i = 0 ∨ i = nx - 1 ∨ j = 0 ∨ j = ny - 1 ∨ k = 0 ∨ k = nz - 1

/-- The stencil `laplace3d_stencil 3 3 3` produces (spacing `1/2` on each
axis). -/
def L3 : stencil3d := ⟨3, 3, 3, 24, -4, -4, -4, -4, -4, -4⟩

/-- Events observable in a run of `main`, at the granularity the MPI
teardown claim needs.  `mpiCollective` covers the MPI traffic issued
inside `cg_solver` and `Timer::summarize` (both outside `src/`); `print`
covers stream output; `exitCall` covers both `exit(-1)` and the
`std::terminate` of an uncaught exception; `ret` is the final
`return 0`. -/
inductive Ev
  | mpiInit
  | mpiBarrier
  | mpiCollective
  | mpiFinalize
  | print
  | exitCall
  | ret
deriving DecidableEq

/-- Which events are MPI calls. -/
def Ev.isMPI : Ev → Bool
  | .mpiInit => true
  | .mpiBarrier => true
  | .mpiCollective => true
  | .mpiFinalize => true
  | _ => false

/-- The ordered-printing loop of lines 77-81: per process one conditional
print and one `MPI_Barrier`. -/
def barrierBlock : ℕ → List Ev
  | 0 => []
  | n + 1 => Ev.print :: Ev.mpiBarrier :: barrierBlock n

/-- Events from `MPI_Init` (line 56) through the ordered printing loop:
rank-0 prints three lines (72-74), then the barrier loop runs `nproc`
times. -/
def startupTrace (nproc : ℕ) : List Ev :=
  Ev.mpiInit :: Ev.print :: Ev.print :: Ev.print :: barrierBlock nproc

/-- The four ways a run of `main` can unfold: bad argument count
(`exit(-1)` line 62); uncaught stencil guard throw (line 86); exception
inside `cg_solver` after `s` collectives (caught at line 133, `exit(-1)`
line 136); or a full run with `s` solver collectives and `t` timer
collectives followed by `MPI_Finalize` (line 144) and `return 0`
(line 145). -/
inductive RunPath
  | badArgs
  | stencilThrow
  | solveThrow (s : ℕ)
  | success (s t : ℕ)

/-- The event trace of `main` along each path, in program order. -/
def mainTrace (nproc : ℕ) : RunPath → List Ev
  | .badArgs => [Ev.mpiInit, Ev.print, Ev.exitCall]
  | .stencilThrow => startupTrace nproc ++ [Ev.exitCall]
  | .solveThrow s =>
      startupTrace nproc ++ List.replicate s Ev.mpiCollective ++
        [Ev.print, Ev.exitCall]
  | .success s t =>
      startupTrace nproc ++ List.replicate s Ev.mpiCollective ++
        List.replicate t Ev.mpiCollective ++ [Ev.mpiFinalize, Ev.ret]

/-- The events issued strictly after `MPI_Finalize` begins (empty when the
trace never reaches `MPI_Finalize`). -/
def eventsAfterFinalize (tr : List Ev) : List Ev :=
  (tr.dropWhile (fun e => e != Ev.mpiFinalize)).drop 1

end CGPoisson

namespace CGPoisson

/-! ### Helper lemmas -/

theorem split_index {n a a' b b' : ℕ} (ha : a < n) (ha' : a' < n)
    (h : a + b * n = a' + b' * n) : a = a' ∧ b = b' := by
  have hn : 0 < n := Nat.lt_of_le_of_lt (Nat.zero_le a) ha
  constructor
  · have hm := congrArg (· % n) h
    simpa [Nat.add_mul_mod_self_right, Nat.mod_eq_of_lt ha,
      Nat.mod_eq_of_lt ha'] using hm
  · have hd := congrArg (· / n) h
    simpa [Nat.add_mul_div_right _ _ hn, Nat.div_eq_of_lt ha,
      Nat.div_eq_of_lt ha'] using hd

theorem index_c_eqn (nx ny i j k : ℕ) :
    index_c nx ny i j k = i + (j + k * ny) * nx := by
  unfold index_c; ring

theorem index_c_inj {nx ny i j k i' j' k' : ℕ}
    (hi : i < nx) (hj : j < ny) (hi' : i' < nx) (hj' : j' < ny)
    (h : index_c nx ny i j k = index_c nx ny i' j' k') :
    i = i' ∧ j = j' ∧ k = k' := by
  rw [index_c_eqn, index_c_eqn] at h
  obtain ⟨h1, h2⟩ := split_index hi hi' h
  obtain ⟨h3, h4⟩ := split_index hj hj' h2
  exact ⟨h1, h3, h4⟩

theorem mem_gridPoints {nx ny nz i j k : ℕ} :
    (i, j, k) ∈ gridPoints nx ny nz ↔ i < nx ∧ j < ny ∧ k < nz := by
  unfold gridPoints
  constructor
  · intro h
    obtain ⟨q, hq, hqe⟩ := List.mem_map.mp h
    obtain ⟨k', jq⟩ := q
    obtain ⟨j', i'⟩ := jq
    obtain ⟨hk', hji⟩ := List.mem_product.mp hq
    obtain ⟨hj', hi'⟩ := List.mem_product.mp hji
    simp only [Prod.mk.injEq] at hqe
    obtain ⟨e1, e2, e3⟩ := hqe
    subst e1; subst e2; subst e3
    exact ⟨List.mem_range.mp hi', List.mem_range.mp hj', List.mem_range.mp hk'⟩
  · intro ⟨hi, hj, hk⟩
    refine List.mem_map.mpr ⟨(k, j, i), ?_, rfl⟩
    exact List.mem_product.mpr ⟨List.mem_range.mpr hk,
      List.mem_product.mpr ⟨List.mem_range.mpr hj, List.mem_range.mpr hi⟩⟩

theorem nodup_gridPoints (nx ny nz : ℕ) : (gridPoints nx ny nz).Nodup := by
  unfold gridPoints
  refine List.Nodup.map ?_ ?_
  · intro q q' hq
    obtain ⟨a, b, c⟩ := q
    obtain ⟨a', b', c'⟩ := q'
    simp only [Prod.mk.injEq] at hq ⊢
    exact ⟨hq.2.2, hq.2.1, hq.1⟩
  · exact List.Nodup.product (List.nodup_range nz)
      (List.Nodup.product (List.nodup_range ny) (List.nodup_range nx))

theorem mem_facePoints {nx ny i j : ℕ} :
    (i, j) ∈ facePoints nx ny ↔ i < nx ∧ j < ny := by
  unfold facePoints
  constructor
  · intro h
    obtain ⟨q, hq, hqe⟩ := List.mem_map.mp h
    obtain ⟨j', i'⟩ := q
    obtain ⟨hj', hi'⟩ := List.mem_product.mp hq
    simp only [Prod.mk.injEq] at hqe
    obtain ⟨e1, e2⟩ := hqe
    subst e1; subst e2
    exact ⟨List.mem_range.mp hi', List.mem_range.mp hj'⟩
  · intro ⟨hi, hj⟩
    refine List.mem_map.mpr ⟨(j, i), ?_, rfl⟩
    exact List.mem_product.mpr ⟨List.mem_range.mpr hj, List.mem_range.mpr hi⟩

theorem nodup_facePoints (nx ny : ℕ) : (facePoints nx ny).Nodup := by
  unfold facePoints
  refine List.Nodup.map ?_ ?_
  · intro q q' hq
    obtain ⟨a, b⟩ := q
    obtain ⟨a', b'⟩ := q'
    simp only [Prod.mk.injEq] at hq ⊢
    exact ⟨hq.2, hq.1⟩
  · exact List.Nodup.product (List.nodup_range ny) (List.nodup_range nx)

theorem loopUpdates_frame {α : Type} {key : α → ℕ}
    {upd : (ℕ → ℚ) → α → ℚ} {ps : List α} {t : ℕ}
    (h : ∀ p ∈ ps, key p ≠ t) :
    ∀ b : ℕ → ℚ, loopUpdates key upd ps b t = b t := by
  induction ps with
  | nil => intro b; rfl
  | cons p ps ih =>
    intro b
    have hrest : ∀ q ∈ ps, key q ≠ t := fun q hq => h q (List.mem_cons_of_mem p hq)
    have hp : key p ≠ t := h p (List.mem_cons_self p ps)
    calc loopUpdates key upd (p :: ps) b t
        = Function.update b (key p) (upd b p) t := ih hrest _
      _ = b t := Function.update_noteq (Ne.symm hp) _ _

theorem loopUpdates_once {α : Type} {key : α → ℕ}
    {upd : (ℕ → ℚ) → α → ℚ} {p : α}
    (hu : ∀ b b' : ℕ → ℚ, b (key p) = b' (key p) → upd b p = upd b' p) :
    ∀ {l1 l2 : List α}, (∀ q ∈ l1, key q ≠ key p) → (∀ q ∈ l2, key q ≠ key p) →
    ∀ b : ℕ → ℚ, loopUpdates key upd (l1 ++ p :: l2) b (key p) = upd b p := by
  intro l1
  induction l1 with
  | nil =>
    intro l2 _ h2 b
    show loopUpdates key upd l2 (Function.update b (key p) (upd b p)) (key p) = upd b p
    rw [loopUpdates_frame h2, Function.update_same]
  | cons q l1 ih =>
    intro l2 h1 h2 b
    have hq : key q ≠ key p := h1 q (List.mem_cons_self q l1)
    have h1rest : ∀ r ∈ l1, key r ≠ key p := fun r hr => h1 r (List.mem_cons_of_mem q hr)
    show loopUpdates key upd (l1 ++ p :: l2)
        (Function.update b (key q) (upd b q)) (key p) = upd b p
    rw [ih h1rest h2]
    exact hu _ _ (Function.update_noteq (Ne.symm hq) _ _)

theorem rhsInit_eq {nx ny nz : ℕ} (F : ℚ → ℚ → ℚ → ℚ) (dx dy dz : ℚ)
    {i j k : ℕ} (hi : i < nx) (hj : j < ny) (hk : k < nz) (b : ℕ → ℚ) :
    rhsInit nx ny nz F dx dy dz b (index_c nx ny i j k) =
      F (i * dx) (j * dy) (k * dz) := by
  have hmem : (i, j, k) ∈ gridPoints nx ny nz := mem_gridPoints.mpr ⟨hi, hj, hk⟩
  obtain ⟨l1, l2, hsplit⟩ := List.append_of_mem hmem
  have hnd : (l1 ++ (i, j, k) :: l2).Nodup := hsplit ▸ nodup_gridPoints nx ny nz
  have hnotmem : (i, j, k) ∉ l1 ++ l2 :=
    List.Nodup.not_mem (List.nodup_middle.mp hnd)
  have hfresh : ∀ q ∈ l1 ++ l2, rhsKey nx ny q ≠ rhsKey nx ny (i, j, k) := by
    intro q hq hkey
    have hqg : q ∈ gridPoints nx ny nz := by
      rw [hsplit]
      rcases List.mem_append.mp hq with h | h
      · exact List.mem_append.mpr (Or.inl h)
      · exact List.mem_append.mpr (Or.inr (List.mem_cons_of_mem _ h))
    obtain ⟨qi, qj, qk⟩ := q
    obtain ⟨hqi, hqj, _⟩ := mem_gridPoints.mp hqg
    obtain ⟨e1, e2, e3⟩ := index_c_inj hqi hqj hi hj hkey
    subst e1; subst e2; subst e3
    exact hnotmem hq
  have h1 : ∀ q ∈ l1, rhsKey nx ny q ≠ rhsKey nx ny (i, j, k) :=
    fun q hq => hfresh q (List.mem_append.mpr (Or.inl hq))
  have h2 : ∀ q ∈ l2, rhsKey nx ny q ≠ rhsKey nx ny (i, j, k) :=
    fun q hq => hfresh q (List.mem_append.mpr (Or.inr hq))
  have := @loopUpdates_once (ℕ × ℕ × ℕ) (rhsKey nx ny)
    (fun _ p => F (p.1 * dx) (p.2.1 * dy) (p.2.2 * dz))
    (i, j, k) (fun _ _ _ => rfl) l1 l2 h1 h2 b
  unfold rhsInit
  rw [hsplit]
  exact this

theorem dirichletFold_eq {nx ny : ℕ} (vb dx dy : ℚ)
    {i j : ℕ} (hi : i < nx) (hj : j < ny) (b : ℕ → ℚ) :
    dirichletFold nx ny vb dx dy b (index_c nx ny i j 0) =
      b (index_c nx ny i j 0) - vb * g_0 (i * dx) (j * dy) := by
  have hmem : (i, j) ∈ facePoints nx ny := mem_facePoints.mpr ⟨hi, hj⟩
  obtain ⟨l1, l2, hsplit⟩ := List.append_of_mem hmem
  have hnd : (l1 ++ (i, j) :: l2).Nodup := hsplit ▸ nodup_facePoints nx ny
  have hnotmem : (i, j) ∉ l1 ++ l2 :=
    List.Nodup.not_mem (List.nodup_middle.mp hnd)
  have hfresh : ∀ q ∈ l1 ++ l2, faceKey nx ny q ≠ faceKey nx ny (i, j) := by
    intro q hq hkey
    have hqg : q ∈ facePoints nx ny := by
      rw [hsplit]
      rcases List.mem_append.mp hq with h | h
      · exact List.mem_append.mpr (Or.inl h)
      · exact List.mem_append.mpr (Or.inr (List.mem_cons_of_mem _ h))
    obtain ⟨qi, qj⟩ := q
    obtain ⟨hqi, hqj⟩ := mem_facePoints.mp hqg
    obtain ⟨e1, e2, _⟩ := index_c_inj hqi hqj hi hj hkey
    subst e1; subst e2
    exact hnotmem hq
  have h1 : ∀ q ∈ l1, faceKey nx ny q ≠ faceKey nx ny (i, j) :=
    fun q hq => hfresh q (List.mem_append.mpr (Or.inl hq))
  have h2 : ∀ q ∈ l2, faceKey nx ny q ≠ faceKey nx ny (i, j) :=
    fun q hq => hfresh q (List.mem_append.mpr (Or.inr hq))
  have := @loopUpdates_once (ℕ × ℕ) (faceKey nx ny)
    (fun b p => b (faceKey nx ny p) - vb * g_0 (p.1 * dx) (p.2 * dy))
    (i, j) (fun b b' h => by simp only [h]) l1 l2 h1 h2 b
  unfold dirichletFold
  rw [hsplit]
  exact this

theorem dirichletFold_frame {nx ny : ℕ} (vb dx dy : ℚ) {t : ℕ}
    (h : ∀ i j : ℕ, i < nx → j < ny → index_c nx ny i j 0 ≠ t) (b : ℕ → ℚ) :
    dirichletFold nx ny vb dx dy b t = b t := by
  unfold dirichletFold
  refine loopUpdates_frame ?_ b
  intro p hp
  obtain ⟨pi, pj⟩ := p
  obtain ⟨hpi, hpj⟩ := mem_facePoints.mp hp
  exact h pi pj hpi hpj

end CGPoisson

namespace CGPoisson

theorem dxOf_pos {n : ℤ} (h : 2 < n) : 0 < dxOf n := by
  unfold dxOf
  have h1 : (2 : ℚ) < (n : ℚ) := by exact_mod_cast h
  have h2 : (0 : ℚ) < (n : ℚ) - 1 := by linarith
  positivity

/-! ### Claim theorems -/

/-- C6: for every pair of rationals (x, y), the boundary-value function
`g_0` returns `x*(1-x)*y*(1-y)`. -/
theorem C6_g0_formula : ∀ x y : ℚ, g_0 x y = x * (1 - x) * y * (1 - y) :=
  fun _ _ => rfl

/-- C2: for all dimensions at least 3, `laplace3d_stencil` returns a
stencil with `value_c = 2/dx^2 + 2/dy^2 + 2/dz^2` for the spacings
`dx = 1/(nx-1)`, `dy = 1/(ny-1)`, `dz = 1/(nz-1)`; `value_c` is strictly
positive and all six off-diagonal coefficients are strictly negative. -/
theorem C2_stencil_coefficients :
    ∀ nx ny nz : ℤ, 3 ≤ nx → 3 ≤ ny → 3 ≤ nz →
    ∃ L : stencil3d, laplace3d_stencil nx ny nz = .ok L ∧
      L.value_c = 2 / dxOf nx ^ 2 + 2 / dxOf ny ^ 2 + 2 / dxOf nz ^ 2 ∧
      0 < L.value_c ∧
      L.value_n < 0 ∧ L.value_s < 0 ∧ L.value_e < 0 ∧ L.value_w < 0 ∧
      L.value_t < 0 ∧ L.value_b < 0 := by
  intro nx ny nz hx hy hz
  have hcond : ¬(nx ≤ 2 ∨ ny ≤ 2 ∨ nz ≤ 2) := by omega
  have px : 0 < dxOf nx := dxOf_pos (by omega)
  have py : 0 < dxOf ny := dxOf_pos (by omega)
  have pz : 0 < dxOf nz := dxOf_pos (by omega)
  refine ⟨⟨nx, ny, nz,
      2 / (dxOf nx * dxOf nx) + 2 / (dxOf ny * dxOf ny) + 2 / (dxOf nz * dxOf nz),
      -1 / (dxOf ny * dxOf ny), -1 / (dxOf nx * dxOf nx),
      -1 / (dxOf ny * dxOf ny), -1 / (dxOf nx * dxOf nx),
      -1 / (dxOf nz * dxOf nz), -1 / (dxOf nz * dxOf nz)⟩,
    by simp [laplace3d_stencil, hcond], ?_, ?_, ?_, ?_, ?_, ?_, ?_, ?_⟩
  · show 2 / (dxOf nx * dxOf nx) + 2 / (dxOf ny * dxOf ny) + 2 / (dxOf nz * dxOf nz)
        = 2 / dxOf nx ^ 2 + 2 / dxOf ny ^ 2 + 2 / dxOf nz ^ 2
    ring
  · have t1 : 0 < 2 / (dxOf nx * dxOf nx) := div_pos two_pos (mul_pos px px)
    have t2 : 0 < 2 / (dxOf ny * dxOf ny) := div_pos two_pos (mul_pos py py)
    have t3 : 0 < 2 / (dxOf nz * dxOf nz) := div_pos two_pos (mul_pos pz pz)
    exact add_pos (add_pos t1 t2) t3
  · exact div_neg_of_neg_of_pos (by norm_num) (mul_pos py py)
  · exact div_neg_of_neg_of_pos (by norm_num) (mul_pos py py)
  · exact div_neg_of_neg_of_pos (by norm_num) (mul_pos px px)
  · exact div_neg_of_neg_of_pos (by norm_num) (mul_pos px px)
  · exact div_neg_of_neg_of_pos (by norm_num) (mul_pos pz pz)
  · exact div_neg_of_neg_of_pos (by norm_num) (mul_pos pz pz)

/-- Witness for C2 at the concrete grid 3 x 3 x 3. -/
theorem C2_stencil_coefficients_witness :
    (3 : ℤ) ≤ 3 ∧
    ∃ L : stencil3d, laplace3d_stencil 3 3 3 = .ok L ∧
      L.value_c = 2 / dxOf 3 ^ 2 + 2 / dxOf 3 ^ 2 + 2 / dxOf 3 ^ 2 ∧
      0 < L.value_c ∧
      L.value_n < 0 ∧ L.value_s < 0 ∧ L.value_e < 0 ∧ L.value_w < 0 ∧
      L.value_t < 0 ∧ L.value_b < 0 :=
  ⟨by decide, C2_stencil_coefficients 3 3 3 (by decide) (by decide) (by decide)⟩

/-- C3: for all dimensions at least 3, the stencil returned by
`laplace3d_stencil` has symmetric opposite-face coefficient pairs:
`value_n = value_s`, `value_e = value_w`, `value_t = value_b`. -/
theorem C3_stencil_symmetry :
    ∀ nx ny nz : ℤ, 3 ≤ nx → 3 ≤ ny → 3 ≤ nz →
    ∃ L : stencil3d, laplace3d_stencil nx ny nz = .ok L ∧
      L.value_n = L.value_s ∧ L.value_e = L.value_w ∧ L.value_t = L.value_b := by
  intro nx ny nz hx hy hz
  have hcond : ¬(nx ≤ 2 ∨ ny ≤ 2 ∨ nz ≤ 2) := by omega
  refine ⟨⟨nx, ny, nz,
      2 / (dxOf nx * dxOf nx) + 2 / (dxOf ny * dxOf ny) + 2 / (dxOf nz * dxOf nz),
      -1 / (dxOf ny * dxOf ny), -1 / (dxOf nx * dxOf nx),
      -1 / (dxOf ny * dxOf ny), -1 / (dxOf nx * dxOf nx),
      -1 / (dxOf nz * dxOf nz), -1 / (dxOf nz * dxOf nz)⟩,
    ?_, ?_, ?_, ?_⟩
  · simp [laplace3d_stencil, hcond]
  · rfl
  · rfl
  · rfl

/-- Witness for C3 at the concrete grid 3 x 3 x 3. -/
theorem C3_stencil_symmetry_witness :
    (3 : ℤ) ≤ 3 ∧
    ∃ L : stencil3d, laplace3d_stencil 3 3 3 = .ok L ∧
      L.value_n = L.value_s ∧ L.value_e = L.value_w ∧ L.value_t = L.value_b :=
  ⟨by decide, C3_stencil_symmetry 3 3 3 (by decide) (by decide) (by decide)⟩

/-- C1: the stencil constructor errors exactly on the triples with some
axis at most 2, the error happens before any solve is attempted (a run
whose parsed dimensions have a small axis ends in `configError` and never
reaches the `cg_solver` call), and for triples with all axes at least 3 no
such error is raised. -/
theorem C1_config_guard :
    ∀ nx ny nz : ℤ,
      ((nx ≤ 2 ∨ ny ≤ 2 ∨ nz ≤ 2) ↔
        laplace3d_stencil nx ny nz = .error stencilErrMsg) ∧
      ((3 ≤ nx ∧ 3 ≤ ny ∧ 3 ≤ nz) →
        ∃ L, laplace3d_stencil nx ny nz = .ok L) ∧
      (∀ args : List ℤ, parseArgs args = some (nx, ny, nz) →
        (nx ≤ 2 ∨ ny ≤ 2 ∨ nz ≤ 2) →
        mainModel args = .configError stencilErrMsg ∧
        solveAttempted (mainModel args) = false) := by
  intro nx ny nz
  refine ⟨⟨fun h => by simp [laplace3d_stencil, h], fun h => ?_⟩, fun h => ?_, ?_⟩
  · by_cases hc : nx ≤ 2 ∨ ny ≤ 2 ∨ nz ≤ 2
    · exact hc
    · simp [laplace3d_stencil, hc] at h
  · have hc : ¬(nx ≤ 2 ∨ ny ≤ 2 ∨ nz ≤ 2) := by omega
    exact ⟨⟨nx, ny, nz,
        2 / (dxOf nx * dxOf nx) + 2 / (dxOf ny * dxOf ny) + 2 / (dxOf nz * dxOf nz),
        -1 / (dxOf ny * dxOf ny), -1 / (dxOf nx * dxOf nx),
        -1 / (dxOf ny * dxOf ny), -1 / (dxOf nx * dxOf nx),
        -1 / (dxOf nz * dxOf nz), -1 / (dxOf nz * dxOf nz)⟩,
      by simp [laplace3d_stencil, hc]⟩
  · intro args hp hc
    have herr : laplace3d_stencil nx ny nz = .error stencilErrMsg := by
      simp [laplace3d_stencil, hc]
    constructor
    · simp [mainModel, afterParse, stencilOutcome, hp, herr]
    · simp [mainModel, afterParse, stencilOutcome, hp, herr, solveAttempted]

/-- Witness for C1 at the grids 2 x 2 x 2 (guard fires, no solve) and
3 x 3 x 3 (no error). -/
theorem C1_config_guard_witness :
    laplace3d_stencil 2 2 2 = .error stencilErrMsg ∧
    (mainModel [2] = .configError stencilErrMsg ∧
      solveAttempted (mainModel [2]) = false) ∧
    ∃ L, laplace3d_stencil 3 3 3 = .ok L :=
  ⟨(C1_config_guard 2 2 2).1.mp (by decide),
   (C1_config_guard 2 2 2).2.2 [2] (by decide) (by decide),
   (C1_config_guard 3 3 3).2.1 (by decide)⟩

/-- C9: no arguments gives the 128 x 128 x 128 grid; one argument `a`
gives `a x a x a`; three arguments give the triple with a negative second
or third entry replaced by the first; every other argument count makes the
run exit before the domain decomposition is constructed. -/
theorem C9_argument_handling :
    parseArgs [] = some (128, 128, 128) ∧
    (∀ a : ℤ, parseArgs [a] = some (a, a, a)) ∧
    (∀ a b c : ℤ, parseArgs [a, b, c] =
      some (a, if b < 0 then a else b, if c < 0 then a else c)) ∧
    (∀ args : List ℤ, (parseArgs args = none ↔
      ¬(args.length = 0 ∨ args.length = 1 ∨ args.length = 3))) ∧
    (∀ args : List ℤ, (parseArgs args = none ↔ mainModel args = .argError)) ∧
    decompConstructed .argError = false := by
  refine ⟨by decide, fun a => ?_, fun a b c => ?_, fun args => ?_, fun args => ?_, rfl⟩
  · simp [parseArgs, fixdims]
  · simp [parseArgs, fixdims]
  · rcases args with _ | ⟨a, _ | ⟨b, _ | ⟨c, _ | ⟨d, rest⟩⟩⟩⟩ <;>
      simp [parseArgs, List.length]
  · rcases hp : parseArgs args with _ | ⟨⟨nx, ny, nz⟩⟩
    · simp [mainModel, afterParse, hp]
    · rcases hs : laplace3d_stencil nx ny nz with _ | _ <;>
        simp [mainModel, afterParse, stencilOutcome, hp, hs]

/-- C10: every run that reaches the solve calls `cg_solver` with
`tol = sqrt(double machine epsilon)` and `maxIter = 500`, independent of
the grid dimensions; the modelled tolerance squares back to machine
epsilon and is positive. -/
theorem C10_solver_parameters :
    (∀ (args : List ℤ) (c : SolveCall), mainModel args = .solveAttempt c →
      c.tol = sqrtDoubleEps ∧ c.maxIter = 500) ∧
    sqrtDoubleEps * sqrtDoubleEps = doubleEps ∧ 0 < sqrtDoubleEps := by
  refine ⟨fun args c h => ?_, by norm_num [sqrtDoubleEps, doubleEps], by norm_num [sqrtDoubleEps]⟩
  unfold mainModel at h
  rcases hp : parseArgs args with _ | ⟨⟨nx, ny, nz⟩⟩ <;> rw [hp] at h
  · simp [afterParse] at h
  · simp only [afterParse] at h
    rcases hs : laplace3d_stencil nx ny nz with msg | L <;> rw [hs] at h
    · simp [stencilOutcome] at h
    · simp only [stencilOutcome, MainOutcome.solveAttempt.injEq] at h
      subst h
      exact ⟨rfl, rfl⟩

/-- Witness for C10 on the run with the single argument 3. -/
theorem C10_solver_parameters_witness :
    mainModel [3] = .solveAttempt ⟨L3, sqrtDoubleEps, 500⟩ ∧
    (⟨L3, sqrtDoubleEps, 500⟩ : SolveCall).tol = sqrtDoubleEps ∧
    (⟨L3, sqrtDoubleEps, 500⟩ : SolveCall).maxIter = 500 :=
  ⟨by norm_num [mainModel, afterParse, stencilOutcome, parseArgs, fixdims, laplace3d_stencil, dxOf, L3],
   C10_solver_parameters.1 [3] ⟨L3, sqrtDoubleEps, 500⟩
     (by norm_num [mainModel, afterParse, stencilOutcome, parseArgs, fixdims, laplace3d_stencil, dxOf, L3])⟩

end CGPoisson

namespace CGPoisson

theorem g_0_zero_left (y : ℚ) : g_0 0 y = 0 := by simp [g_0]

theorem g_0_one_left (y : ℚ) : g_0 1 y = 0 := by norm_num [g_0]

theorem g_0_zero_right (x : ℚ) : g_0 x 0 = 0 := by simp [g_0]

theorem g_0_one_right (x : ℚ) : g_0 x 1 = 0 := by norm_num [g_0]

theorem coordOne {n : ℕ} (h : 3 ≤ n) : ((n - 1 : ℕ) : ℚ) * dxOf n = 1 := by
  have h3 : (3 : ℚ) ≤ (n : ℚ) := by exact_mod_cast h
  have h1 : (n : ℚ) - 1 ≠ 0 := by intro heq; nlinarith
  unfold dxOf
  push_cast [Nat.cast_sub (show 1 ≤ n by omega)]
  field_simp

theorem stencil_ok_dims {nx ny nz : ℕ} {L : stencil3d}
    (h : laplace3d_stencil nx ny nz = .ok L) : 3 ≤ nx ∧ 3 ≤ ny ∧ 3 ≤ nz := by
  by_contra hcon
  have hc : ((nx : ℤ) ≤ 2 ∨ (ny : ℤ) ≤ 2 ∨ (nz : ℤ) ≤ 2) := by omega
  unfold laplace3d_stencil at h
  rw [if_pos hc] at h
  exact Except.noConfusion h

/-- C4 names this: the rhs-initialization loop writes a sample of the
forcing function at the grid point `(0,1,1)` of the 3 x 3 x 3 grid, which
lies on the x = 0 boundary face — for every forcing function `F`, the
entry written there is exactly `F` at that point's coordinates, so
boundary entries are samples of the forcing function, contradicting both
the claim and the loop's own comment. -/
theorem C4_boundary_entry_is_f_sample :
    onBoundary 3 3 3 0 1 1 ∧
    ∀ F : ℚ → ℚ → ℚ → ℚ,
      rhsInit 3 3 3 F (dxOf 3) (dxOf 3) (dxOf 3) (fun _ => 0)
        (index_c 3 3 0 1 1) = F 0 (1 / 2) (1 / 2) := by
  constructor
  · exact Or.inl rfl
  · intro F
    rw [rhsInit_eq F (dxOf 3) (dxOf 3) (dxOf 3)
      (show 0 < 3 by omega) (show 1 < 3 by omega) (show 1 < 3 by omega)]
    norm_num [dxOf]

/-- C5: the Dirichlet folding loop touches exactly the z = 0 face: there
the final entry is the forcing value minus `value_b * g_0(i*dx, j*dy)`;
entries on every other global boundary face are left unchanged by the
fold, and no entry with k > 0 is modified. -/
theorem C5_fold_single_face :
    ∀ (nx ny nz : ℕ) (L : stencil3d),
      laplace3d_stencil nx ny nz = .ok L →
      ∀ (F : ℚ → ℚ → ℚ → ℚ) (i j k : ℕ), i < nx → j < ny → k < nz →
      ((k = 0 →
        dirichletFold nx ny L.value_b (dxOf nx) (dxOf ny)
          (rhsInit nx ny nz F (dxOf nx) (dxOf ny) (dxOf nz) (fun _ => 0))
          (index_c nx ny i j 0)
        = F (i * dxOf nx) (j * dxOf ny) 0
          - L.value_b * g_0 (i * dxOf nx) (j * dxOf ny)) ∧
      (0 < k → ∀ b : ℕ → ℚ,
        dirichletFold nx ny L.value_b (dxOf nx) (dxOf ny) b (index_c nx ny i j k)
        = b (index_c nx ny i j k)) ∧
      ((i = 0 ∨ i = nx - 1 ∨ j = 0 ∨ j = ny - 1 ∨ k = nz - 1) → ∀ b : ℕ → ℚ,
        dirichletFold nx ny L.value_b (dxOf nx) (dxOf ny) b (index_c nx ny i j k)
        = b (index_c nx ny i j k))) := by
  intro nx ny nz L h F i j k hi hj hk
  obtain ⟨hnx, hny, hnz⟩ := stencil_ok_dims h
  have hframe : 0 < k → ∀ b : ℕ → ℚ,
      dirichletFold nx ny L.value_b (dxOf nx) (dxOf ny) b (index_c nx ny i j k)
      = b (index_c nx ny i j k) := by
    intro hkpos b
    refine dirichletFold_frame _ _ _ ?_ b
    intro i' j' hi' hj' heq
    obtain ⟨_, _, hk0⟩ := index_c_inj hi' hj' hi hj heq
    omega
  refine ⟨?_, hframe, ?_⟩
  · intro hk0
    rw [dirichletFold_eq _ _ _ hi hj]
    rw [rhsInit_eq F (dxOf nx) (dxOf ny) (dxOf nz) hi hj (show 0 < nz by omega)]
    norm_num
  · intro hface b
    rcases Nat.eq_zero_or_pos k with hk0 | hkpos
    · subst hk0
      rw [dirichletFold_eq _ _ _ hi hj]
      have hg : g_0 (i * dxOf nx) (j * dxOf ny) = 0 := by
        rcases hface with hf | hf | hf | hf | hf
        · subst hf; rw [show ((0 : ℕ) : ℚ) * dxOf nx = 0 by push_cast; ring,
            g_0_zero_left]
        · subst hf; rw [coordOne hnx, g_0_one_left]
        · subst hf; rw [show ((0 : ℕ) : ℚ) * dxOf ny = 0 by push_cast; ring,
            g_0_zero_right]
        · subst hf; rw [coordOne hny, g_0_one_right]
        · omega
      rw [hg, mul_zero, sub_zero]
    · exact hframe hkpos b

/-- Witness for C5 at the 3 x 3 x 3 grid, zero forcing, point (1,1,0). -/
theorem C5_fold_single_face_witness :
    (1 < 3 ∧ 0 < 3) ∧
    dirichletFold 3 3 L3.value_b (dxOf 3) (dxOf 3)
      (rhsInit 3 3 3 (fun _ _ _ => (0 : ℚ)) (dxOf 3) (dxOf 3) (dxOf 3)
        (fun _ => 0))
      (index_c 3 3 1 1 0)
    = (fun _ _ _ => (0 : ℚ)) (((1 : ℕ) : ℚ) * dxOf 3) (((1 : ℕ) : ℚ) * dxOf 3) 0
      - L3.value_b * g_0 (((1 : ℕ) : ℚ) * dxOf 3) (((1 : ℕ) : ℚ) * dxOf 3) :=
  ⟨⟨by decide, by decide⟩,
   (C5_fold_single_face 3 3 3 L3 (by norm_num [laplace3d_stencil, dxOf, L3])
      (fun _ _ _ => 0) 1 1 0 (by decide) (by decide) (by decide)).1 rfl⟩

/-- C8: the forcing function vanishes on the z = 0 plane —
`f(x, y, 0) = 0` for all x, y and all values of the abstracted `sin` and
pi — so on the z = 0 face the assembled right-hand side is exactly the
folded Dirichlet term `-value_b * g_0(i*dx, j*dy)`. -/
theorem C8_forcing_vanishes_on_z0 :
    (∀ (rsin : ℚ → ℚ) (rpi x y : ℚ), f rsin rpi x y 0 = 0) ∧
    (∀ (rsin : ℚ → ℚ) (rpi : ℚ) (nx ny nz : ℕ) (L : stencil3d),
      laplace3d_stencil nx ny nz = .ok L →
      ∀ i j : ℕ, i < nx → j < ny →
        dirichletFold nx ny L.value_b (dxOf nx) (dxOf ny)
          (rhsInit nx ny nz (f rsin rpi) (dxOf nx) (dxOf ny) (dxOf nz)
            (fun _ => 0))
          (index_c nx ny i j 0)
        = -(L.value_b * g_0 (i * dxOf nx) (j * dxOf ny))) := by
  constructor
  · intro rsin rpi x y
    unfold f
    ring
  · intro rsin rpi nx ny nz L h i j hi hj
    obtain ⟨hnx, hny, hnz⟩ := stencil_ok_dims h
    rw [dirichletFold_eq _ _ _ hi hj]
    rw [rhsInit_eq (f rsin rpi) (dxOf nx) (dxOf ny) (dxOf nz) hi hj
      (show 0 < nz by omega)]
    rw [show ((0 : ℕ) : ℚ) * dxOf nz = 0 by push_cast; ring]
    unfold f
    ring

/-- Witness for C8: the identity function for `sin`, pi modelled as 0,
the 3 x 3 x 3 grid, point (1,1,0). -/
theorem C8_forcing_vanishes_on_z0_witness :
    f (fun q => q) 0 1 1 0 = 0 ∧
    dirichletFold 3 3 L3.value_b (dxOf 3) (dxOf 3)
      (rhsInit 3 3 3 (f (fun q => q) 0) (dxOf 3) (dxOf 3) (dxOf 3)
        (fun _ => 0))
      (index_c 3 3 1 1 0)
    = -(L3.value_b * g_0 (((1 : ℕ) : ℚ) * dxOf 3) (((1 : ℕ) : ℚ) * dxOf 3)) :=
  ⟨C8_forcing_vanishes_on_z0.1 (fun q => q) 0 1 1,
   C8_forcing_vanishes_on_z0.2 (fun q => q) 0 3 3 3 L3
     (by norm_num [laplace3d_stencil, dxOf, L3]) 1 1 (by decide) (by decide)⟩

end CGPoisson

namespace CGPoisson

theorem mem_barrierBlock {n : ℕ} {e : Ev} (h : e ∈ barrierBlock n) :
    e = Ev.print ∨ e = Ev.mpiBarrier := by
  induction n with
  | zero => simp [barrierBlock] at h
  | succ m ih =>
    rcases List.mem_cons.mp h with h1 | h1
    · exact Or.inl h1
    · rcases List.mem_cons.mp h1 with h2 | h2
      · exact Or.inr h2
      · exact ih h2

theorem finalize_not_mem_startup (n : ℕ) :
    Ev.mpiFinalize ∉ startupTrace n := by
  intro hmem
  unfold startupTrace at hmem
  rcases List.mem_cons.mp hmem with h | h
  · exact Ev.noConfusion h
  · rcases List.mem_cons.mp h with h | h
    · exact Ev.noConfusion h
    · rcases List.mem_cons.mp h with h | h
      · exact Ev.noConfusion h
      · rcases List.mem_cons.mp h with h | h
        · exact Ev.noConfusion h
        · rcases mem_barrierBlock h with h | h <;> exact Ev.noConfusion h

theorem finalize_not_mem_front (nproc s t : ℕ) :
    Ev.mpiFinalize ∉
      (startupTrace nproc ++ List.replicate s Ev.mpiCollective) ++
        List.replicate t Ev.mpiCollective := by
  intro hmem
  rcases List.mem_append.mp hmem with hm | hm
  · rcases List.mem_append.mp hm with hm2 | hm2
    · exact finalize_not_mem_startup nproc hm2
    · exact Ev.noConfusion (List.eq_of_mem_replicate hm2)
  · exact Ev.noConfusion (List.eq_of_mem_replicate hm)

theorem dropWhile_append_all {p : Ev → Bool} {l1 l2 : List Ev}
    (h : ∀ a ∈ l1, p a = true) :
    (l1 ++ l2).dropWhile p = l2.dropWhile p := by
  induction l1 with
  | nil => rfl
  | cons a l1 ih =>
    have ha : p a = true := h a (List.mem_cons_self a l1)
    have hrest : ∀ b ∈ l1, p b = true :=
      fun b hb => h b (List.mem_cons_of_mem a hb)
    simp [List.dropWhile_cons, ha, ih hrest]

theorem eventsAfterFinalize_of_not_mem {tr : List Ev}
    (h : Ev.mpiFinalize ∉ tr) : eventsAfterFinalize tr = [] := by
  unfold eventsAfterFinalize
  have hall : tr.dropWhile (fun e => e != Ev.mpiFinalize) = [] := by
    rw [List.dropWhile_eq_nil_iff]
    intro x hx
    simp only [bne_iff_ne, ne_eq, decide_eq_true_eq]
    intro heq
    exact h (heq ▸ hx)
  rw [hall]
  rfl

theorem eventsAfterFinalize_success (nproc s t : ℕ) :
    eventsAfterFinalize (mainTrace nproc (.success s t)) = [Ev.ret] := by
  have hpre := finalize_not_mem_front nproc s t
  have hall : ∀ a ∈ (startupTrace nproc ++ List.replicate s Ev.mpiCollective) ++
      List.replicate t Ev.mpiCollective, (a != Ev.mpiFinalize) = true := by
    intro a ha
    simp only [bne_iff_ne, ne_eq, decide_eq_true_eq]
    intro heq
    exact hpre (heq ▸ ha)
  show ((((startupTrace nproc ++ List.replicate s Ev.mpiCollective) ++
      List.replicate t Ev.mpiCollective) ++ [Ev.mpiFinalize, Ev.ret]).dropWhile
        (fun e => e != Ev.mpiFinalize)).drop 1 = [Ev.ret]
  rw [dropWhile_append_all hall]
  rfl

/-- C7: along every run path, no MPI call appears after `MPI_Finalize`
begins, and on the path that reaches `return 0` the trace contains exactly
one `MPI_Finalize`, placed as the last MPI event, directly before the
return. -/
theorem C7_no_mpi_after_finalize :
    ∀ (nproc s t : ℕ) (p : RunPath),
      ((eventsAfterFinalize (mainTrace nproc p)).all fun e => !e.isMPI) = true ∧
      (mainTrace nproc (.success s t)).count Ev.mpiFinalize = 1 ∧
      ∃ pre : List Ev,
        mainTrace nproc (.success s t) = pre ++ [Ev.mpiFinalize, Ev.ret] ∧
        Ev.mpiFinalize ∉ pre := by
  intro nproc s t p
  refine ⟨?_, ?_, ?_⟩
  · cases p with
    | badArgs => rfl
    | stencilThrow =>
      rw [eventsAfterFinalize_of_not_mem ?_]
      · rfl
      · intro hmem
        rcases List.mem_append.mp hmem with hm | hm
        · exact finalize_not_mem_startup nproc hm
        · rcases List.mem_cons.mp hm with h | h
          · exact Ev.noConfusion h
          · simp at h
      | solveThrow s' =>
        rw [eventsAfterFinalize_of_not_mem ?_]
        · rfl
        · intro hmem
          rcases List.mem_append.mp hmem with hm | hm
          · rcases List.mem_append.mp hm with hm2 | hm2
            · exact finalize_not_mem_startup nproc hm2
            · exact Ev.noConfusion (List.eq_of_mem_replicate hm2)
          · rcases List.mem_cons.mp hm with h | h
            · exact Ev.noConfusion h
            · rcases List.mem_cons.mp h with h2 | h2
              · exact Ev.noConfusion h2
              · simp at h2
      | success s' t' =>
        rw [eventsAfterFinalize_success nproc s' t']
        rfl
  · show (((startupTrace nproc ++ List.replicate s Ev.mpiCollective) ++
      List.replicate t Ev.mpiCollective) ++ [Ev.mpiFinalize, Ev.ret]).count
        Ev.mpiFinalize = 1
    rw [List.count_append, List.count_eq_zero.mpr (finalize_not_mem_front nproc s t)]
    rfl
  · exact ⟨(startupTrace nproc ++ List.replicate s Ev.mpiCollective) ++
      List.replicate t Ev.mpiCollective, rfl, finalize_not_mem_front nproc s t⟩

end CGPoisson
